import Mathlib

/-!
Verification of the MySQL `SET` column-type codec
(`lib/sqlalchemy/dialects/mysql/enumerated.py`, class `SET`).

The codec translates between an application-level set of label strings and
one of two storage encodings: a comma-joined string, or a bitmask integer
where the label at 0-indexed vocabulary position `i` owns bit value `2^i`.
Construction (`SET.__init__`) validates the vocabulary (a blank label
requires bitmask mode) and, in bitmask mode, builds `self._bitmap`, a single
dict holding both the label → bit and the bit → label mappings (the key
types, `str` and `int`, never collide; here the two halves are the separate
functions `labelToBit` and `bitToLabel`).

Python `None` is modelled by the `null` constructor of the tagged value
types; a raised exception (`KeyError` from `_bitmap[...]`) is modelled by an
`Option.none` result.
-/

namespace MySQLSet

/-- Configuration state set up by `SET.__init__` (source lines 148-164):
the vocabulary tuple `self.values`, the mode flag
`self.retrieve_as_bitwise`, and the display `length` hint. -/
structure SET where
  values : List String
  retrieve_as_bitwise : Bool
  length : Nat
deriving DecidableEq

/-- Embedding of `SET.__init__` (source lines 148-164).  Returns `none` for
the `ArgumentError` raised when the blank value `""` appears in the
vocabulary without `retrieve_as_bitwise=True`; otherwise builds the
configuration, with `length = max([len(v) for v in values] + [0])`. -/
def SET.init (values : List String) (retrieve_as_bitwise : Bool) : Option SET :=
  if !retrieve_as_bitwise && values.contains "" then
    none
  else
    some { values := values
           retrieve_as_bitwise := retrieve_as_bitwise
           length := (values.map String.length).foldr max 0 }

/-- The label-keyed half of `self._bitmap` (source lines 156-158):
the dict comprehension `{value: 2**idx for idx, value in enumerate(values)}`.
A later duplicate label overwrites an earlier one in a Python dict, hence
the lookup runs over the reversed association list. -/
def labelToBit (values : List String) (v : String) : Option Nat :=
  ((values.enum.map (fun p => (p.2, 2 ^ p.1))).reverse).lookup v

/-- The integer-keyed half of `self._bitmap` (source lines 159-161):
the update `(2**idx, value) for idx, value in enumerate(values)`.
The keys `2^idx` are pairwise distinct, so no overwriting occurs. -/
def bitToLabel (values : List String) (b : Nat) : Option String :=
  (values.enum.map (fun p => (2 ^ p.1, p.2))).lookup b

/-- The accumulation loop of the bitwise `bind_processor` branch (source
lines 216-219): `for v in value: int_value |= self._bitmap[v]`.  A member
absent from the vocabulary raises `KeyError` from `self._bitmap[v]`,
modelled as `none`. -/
def orLoop (values : List String) : List String → Nat → Option Nat
  | [], int_value => some int_value
  | v :: rest, int_value =>
    match labelToBit values v with
    | some b => orLoop values rest (int_value ||| b)
    | none => none

/-- Modelled from the spec: `util.map_bits` (called at source line 181) is
not under `src/`.  Per spec §4.4, decode iterates the set bits of the
integer (least significant first) and looks each bit value up in the
bit → label inverse map, failing (`InvalidBitError` / `KeyError` from
`self._bitmap.__getitem__`, modelled as `none`) when a set bit has no
corresponding label.  `k` is the current bit position. -/
def mapBitsAux (values : List String) (n k : Nat) : Option (List String) :=
  if h : n = 0 then
    some []
  else
    let rest := mapBitsAux values (n / 2) (k + 1)
    if n % 2 = 1 then
      match bitToLabel values (2 ^ k) with
      | some l => rest.map (fun ls => l :: ls)
      | none => none
    else rest
termination_by n
decreasing_by exact Nat.div_lt_self (Nat.pos_of_ne_zero h) Nat.one_lt_two

/-- `util.map_bits(self._bitmap.__getitem__, value)` over the whole
integer, starting at bit position 0. -/
def mapBits (values : List String) (n : Nat) : Option (List String) :=
  mapBitsAux values n 0

/-- The join in the string-mode `bind_processor` branch (source line 226):
`",".join(value)` over the members of the label set in iteration order. -/
def joinComma (S : List String) : String :=
  ⟨List.intercalate [','] (S.map String.data)⟩

/-- `re.findall(r"[^,]+", value)` (source line 193): the maximal nonempty
comma-free fragments of the raw string, i.e. split on `','` and discard
every empty fragment. -/
def splitComma (s : String) : List String :=
  ((s.data.splitOn ',').map (fun l => (⟨l⟩ : String))).filter (fun t => t ≠ "")

/-- Input to `bind_processor`'s `process` closures: Python `None`, a raw
integer, a raw string, or an application-level label set (spec §9 models
the lenient runtime type tests as a tagged union).  The label set is
carried as the list of members in iteration order. -/
inductive BindValue where
  | null
  | int (n : Nat)
  | str (s : String)
  | labels (S : List String)
deriving DecidableEq

/-- Storage-ready value produced by `bind_processor`: `None`, an integer
(bitmask mode), or a string. -/
inductive BindResult where
  | null
  | int (n : Nat)
  | str (s : String)
deriving DecidableEq

/-- Raw value reaching the string-mode `result_processor`: `None`, a raw
string (MySQLdb), or an already-split set of strings
(mysql-connector-python). -/
inductive ResultValue where
  | null
  | str (s : String)
  | set (S : Finset String)
deriving DecidableEq

/-- The `process` closure built by `bind_processor` when
`retrieve_as_bitwise` is true (source lines 205-219).  The base string
type's `super_convert` is absent (spec §6: charset-level pass-through), so
raw ints and strings pass through unchanged.  `none` is the propagated
`KeyError` for an invalid label. -/
def SET.bind_process_bitwise (t : SET) : BindValue → Option BindResult
  | .null => some .null
  | .int n => some (.int n)
  | .str s => some (.str s)
  | .labels S => (orLoop t.values S 0).map (fun m => BindResult.int m)

/-- The `process` closure built by `bind_processor` when
`retrieve_as_bitwise` is false (source lines 221-231): a label set is
comma-joined, everything else (including `None`) passes through unchanged;
no lookup is performed, so this closure never raises. -/
def SET.bind_process_string (_t : SET) : BindValue → BindResult
  | .null => .null
  | .int n => .int n
  | .str s => .str s
  | .labels S => .str (joinComma S)

/-- The `process` closure built by `result_processor` when
`retrieve_as_bitwise` is true (source lines 177-183).  The input has
already been coerced to an integer at the expression level (spec §4.4), so
it is an integer or `None`; `int(value)` is then the identity.  The outer
`Option` is the propagated `KeyError` for a set bit with no label. -/
def SET.result_process_bitwise (t : SET) : Option Nat → Option (Option (Finset String))
  | Option.none => some Option.none
  | some n => (mapBits t.values n).map (fun ls => some ls.toFinset)

/-- The `process` closure built by `result_processor` when
`retrieve_as_bitwise` is false (source lines 188-199), as a state-passing
function: the first component is the returned value (`None` in, `None`
out), the second is the state of the caller's argument after the call —
`value.discard("")` at source line 198 mutates the supplied set in place,
and the string branch leaves the argument untouched. -/
def SET.result_process_string (_t : SET) : ResultValue → Option (Finset String) × ResultValue
  | .str s => (some (splitComma s).toFinset, .str s)
  | .set S => (some (S.erase ""), .set (S.erase ""))
  | .null => (Option.none, .null)

/-! ### Association-list lookup with duplicate-free keys -/

/-- Lookup in an association list whose keys are duplicate-free finds the
value of any member pair. -/
theorem lookup_eq_some_of_mem {α β : Type} [BEq α] [LawfulBEq α]
    (l : List (α × β)) (k : α) (b : β)
    (hnd : (l.map Prod.fst).Nodup) (hmem : (k, b) ∈ l) :
    l.lookup k = some b := by
  induction l with
  | nil => cases hmem
  | cons p t ih =>
    obtain ⟨k1, b1⟩ := p
    simp only [List.map_cons, List.nodup_cons] at hnd
    rcases List.mem_cons.mp hmem with heq | htl
    · cases heq
      exact List.lookup_cons_self
    · have hk : k ∈ t.map Prod.fst := List.mem_map.mpr ⟨(k, b), htl, rfl⟩
      have hne : (k == k1) = false := by
        refine beq_false_of_ne fun hc => ?_
        subst hc
        exact hnd.1 hk
      simp only [List.lookup_cons, hne]
      exact ih hnd.2 htl

/-- Lookup of a key that is not among the keys of the association list fails. -/
theorem lookup_eq_none_of_not_mem {α β : Type} [BEq α] [LawfulBEq α]
    (l : List (α × β)) (k : α) (h : k ∉ l.map Prod.fst) :
    l.lookup k = none := by
  rw [List.lookup_eq_none_iff]
  intro p hp
  simp only [bne_iff_ne, ne_eq]
  rintro rfl
  exact h (List.mem_map.mpr ⟨p, hp, rfl⟩)

/-! ### The two halves of `self._bitmap` -/

/-- The keys of the label-keyed bitmap half are the vocabulary labels in
reverse order. -/
theorem labelToBit_keys (values : List String) :
    ((values.enum.map (fun p => (p.2, 2 ^ p.1))).reverse).map Prod.fst
      = values.reverse := by
  rw [List.map_reverse, List.map_map]
  exact congrArg List.reverse (List.enumFrom_map_snd 0 values)

/-- In the integer-keyed bitmap half built from offset `k`, the key
`2^(k+i)` is bound to the label at offset `i`. -/
theorem enumFrom_bit_lookup (vs : List String) :
    ∀ (k i : Nat),
      ((vs.enumFrom k).map (fun p => (2 ^ p.1, p.2))).lookup (2 ^ (k + i))
        = vs[i]? := by
  induction vs with
  | nil => intro k i; simp
  | cons v t ih =>
    intro k i
    cases i with
    | zero => simp [List.lookup_cons]
    | succ j =>
      have hne : ((2 : Nat) ^ (k + (j + 1)) == 2 ^ k) = false := by
        refine beq_false_of_ne fun hc => ?_
        have := Nat.pow_right_injective (le_refl 2) hc
        omega
      rw [List.enumFrom_cons]
      simp only [List.map_cons, List.lookup_cons, hne, List.getElem?_cons_succ]
      have harr : k + (j + 1) = (k + 1) + j := by omega
      rw [harr]
      exact ih (k + 1) j

/-- The bit → label half maps `2^i` to the label at position `i` (and to
nothing when `i` is out of range). -/
theorem bitToLabel_pow (values : List String) (i : Nat) :
    bitToLabel values (2 ^ i) = values[i]? := by
  have h := enumFrom_bit_lookup values 0 i
  simpa [bitToLabel, List.enum] using h

/-- On a duplicate-free vocabulary, the label → bit half maps the label at
position `i` to `2^i`. -/
theorem labelToBit_getElem (values : List String) (hnd : values.Nodup)
    (i : Nat) (h : i < values.length) :
    labelToBit values values[i] = some (2 ^ i) := by
  apply lookup_eq_some_of_mem
  · rw [labelToBit_keys]
    exact List.nodup_reverse.mpr hnd
  · rw [List.mem_reverse, List.mem_map]
    refine ⟨(i, values[i]), ?_, rfl⟩
    have := (List.mk_add_mem_enumFrom_iff_getElem? (n := 0) (i := i)
      (l := values)).mpr (List.getElem?_eq_getElem h)
    simpa [List.enum] using this

/-- A label absent from the vocabulary is absent from the bitmap: the
`KeyError` case of `self._bitmap[v]`. -/
theorem labelToBit_not_mem (values : List String) (v : String) (hv : v ∉ values) :
    labelToBit values v = none := by
  apply lookup_eq_none_of_not_mem
  rw [labelToBit_keys, List.mem_reverse]
  exact hv

/-- On a duplicate-free vocabulary, a member label maps to two raised to
its index. -/
theorem labelToBit_mem (values : List String) (hnd : values.Nodup) (v : String)
    (hv : v ∈ values) :
    labelToBit values v = some (2 ^ values.indexOf v) := by
  have h : values.indexOf v < values.length := List.indexOf_lt_length.mpr hv
  have hg := labelToBit_getElem values hnd (values.indexOf v) h
  rwa [List.getElem_indexOf] at hg

/-! ### The bitwise encode loop -/

/-- The OR accumulation loop succeeds on members of a duplicate-free
vocabulary, and the resulting integer has exactly the bits of the
accumulator plus the bits at the members' vocabulary positions. -/
theorem orLoop_testBit (values : List String) (hnd : values.Nodup) :
    ∀ (S : List String) (acc : Nat), (∀ v ∈ S, v ∈ values) →
      ∃ m, orLoop values S acc = some m ∧
        ∀ k, m.testBit k = true ↔
          (acc.testBit k = true ∨ ∃ v ∈ S, values.indexOf v = k) := by
  intro S
  induction S with
  | nil =>
    intro acc _
    exact ⟨acc, rfl, fun k => by simp⟩
  | cons w S ih =>
    intro acc hS
    have hw : w ∈ values := hS w (List.mem_cons_self w S)
    have hS2 : ∀ v ∈ S, v ∈ values := fun v hv => hS v (List.mem_cons_of_mem w hv)
    obtain ⟨m, hm, hbits⟩ := ih (acc ||| 2 ^ values.indexOf w) hS2
    refine ⟨m, ?_, ?_⟩
    · simp only [orLoop, labelToBit_mem values hnd w hw]
      exact hm
    · intro k
      rw [hbits k]
      simp only [Nat.testBit_or, Nat.testBit_two_pow, Bool.or_eq_true,
        decide_eq_true_eq, List.mem_cons]
      constructor
      · rintro ((h | h) | ⟨v, hv, hvk⟩)
        · exact Or.inl h
        · exact Or.inr ⟨w, Or.inl rfl, h⟩
        · exact Or.inr ⟨v, Or.inr hv, hvk⟩
      · rintro (h | ⟨v, (rfl | hv), hvk⟩)
        · exact Or.inl (Or.inl h)
        · exact Or.inl (Or.inr hvk)
        · exact Or.inr ⟨v, hv, hvk⟩

/-- The OR accumulation loop raises `KeyError` (returns `none`) whenever
some member is absent from the vocabulary. -/
theorem orLoop_none (values : List String) (v : String) (hv : v ∉ values) :
    ∀ (S : List String) (acc : Nat), v ∈ S → orLoop values S acc = none := by
  intro S
  induction S with
  | nil => intro acc h; cases h
  | cons w S ih =>
    intro acc hmem
    by_cases hwv : w = v
    · subst hwv
      simp [orLoop, labelToBit_not_mem values w hv]
    · have hvS : v ∈ S := by
        rcases List.mem_cons.mp hmem with h | h
        · exact absurd h.symm hwv
        · exact h
      cases hb : labelToBit values w with
      | none => simp [orLoop, hb]
      | some b =>
        simp only [orLoop, hb]
        exact ih _ hvS

/-! ### The bitwise decode iteration (`util.map_bits`) -/

/-- Decoding succeeds when every set bit of the integer lies below the
vocabulary length, and yields exactly the labels at the set-bit positions
(offset by the starting bit position `k`). -/
theorem mapBitsAux_testBit (values : List String) :
    ∀ (n k : Nat),
      (∀ j, n.testBit j = true → k + j < values.length) →
      ∃ ls, mapBitsAux values n k = some ls ∧
        ∀ l, l ∈ ls ↔ ∃ j, n.testBit j = true ∧ values[k + j]? = some l := by
  intro n
  induction n using Nat.strong_induction_on with
  | _ n ih =>
    intro k hk
    by_cases h0 : n = 0
    · subst h0
      refine ⟨[], by rw [mapBitsAux]; simp, fun l => by simp⟩
    · have hkrec : ∀ j, (n / 2).testBit j = true → (k + 1) + j < values.length := by
        intro j hj
        have hbit : n.testBit (j + 1) = true := by
          rw [Nat.testBit_add_one]; exact hj
        have := hk (j + 1) hbit
        omega
      obtain ⟨rest, hrest, hrmem⟩ :=
        ih (n / 2) (Nat.div_lt_self (Nat.pos_of_ne_zero h0) Nat.one_lt_two)
          (k + 1) hkrec
      rcases Nat.mod_two_eq_zero_or_one n with hpar | hpar
      · refine ⟨rest, ?_, ?_⟩
        · rw [mapBitsAux]
          simp [h0, hpar, hrest]
        · intro l
          rw [hrmem l]
          constructor
          · rintro ⟨j, hj1, hj2⟩
            refine ⟨j + 1, ?_, ?_⟩
            · rw [Nat.testBit_add_one]; exact hj1
            · have harr : k + (j + 1) = (k + 1) + j := by omega
              rw [harr]; exact hj2
          · rintro ⟨j, hj1, hj2⟩
            cases j with
            | zero =>
              rw [Nat.testBit_zero, hpar] at hj1
              simp at hj1
            | succ j2 =>
              refine ⟨j2, ?_, ?_⟩
              · rw [← Nat.testBit_add_one]; exact hj1
              · have harr : (k + 1) + j2 = k + (j2 + 1) := by omega
                rw [harr]; exact hj2
      · have hk0 : k < values.length := by
          have : n.testBit 0 = true := by
            rw [Nat.testBit_zero, hpar]; rfl
          have := hk 0 this
          omega
        have hbl : bitToLabel values (2 ^ k) = some values[k] := by
          rw [bitToLabel_pow]
          exact List.getElem?_eq_getElem hk0
        refine ⟨values[k] :: rest, ?_, ?_⟩
        · rw [mapBitsAux]
          simp [h0, hpar, hbl, hrest]
        · intro l
          simp only [List.mem_cons, hrmem l]
          constructor
          · rintro (rfl | ⟨j, hj1, hj2⟩)
            · refine ⟨0, ?_, ?_⟩
              · rw [Nat.testBit_zero, hpar]; rfl
              · rw [Nat.add_zero]
                exact List.getElem?_eq_getElem hk0
            · refine ⟨j + 1, ?_, ?_⟩
              · rw [Nat.testBit_add_one]; exact hj1
              · have harr : k + (j + 1) = (k + 1) + j := by omega
                rw [harr]; exact hj2
          · rintro ⟨j, hj1, hj2⟩
            cases j with
            | zero =>
              left
              rw [Nat.add_zero, List.getElem?_eq_getElem hk0] at hj2
              exact (Option.some.inj hj2).symm
            | succ j2 =>
              right
              refine ⟨j2, ?_, ?_⟩
              · rw [← Nat.testBit_add_one]; exact hj1
              · have harr : (k + 1) + j2 = k + (j2 + 1) := by omega
                rw [harr]; exact hj2

/-- Decoding fails (the `KeyError` behind `InvalidBitError` propagates)
whenever the integer has a set bit at or beyond the vocabulary length. -/
theorem mapBitsAux_none (values : List String) :
    ∀ (n k j : Nat), n.testBit j = true → values.length ≤ k + j →
      mapBitsAux values n k = none := by
  intro n
  induction n using Nat.strong_induction_on with
  | _ n ih =>
    intro k j hbit hlen
    have h0 : n ≠ 0 := by
      rintro rfl
      simp at hbit
    rw [mapBitsAux]
    cases j with
    | zero =>
      have hpar : n % 2 = 1 := by simpa using hbit
      have hbl : bitToLabel values (2 ^ k) = none := by
        rw [bitToLabel_pow]
        exact List.getElem?_eq_none (by omega)
      simp [h0, hpar, hbl]
    | succ j2 =>
      have hrec : mapBitsAux values (n / 2) (k + 1) = none :=
        ih (n / 2) (Nat.div_lt_self (Nat.pos_of_ne_zero h0) Nat.one_lt_two)
          (k + 1) j2 (by rw [← Nat.testBit_add_one]; exact hbit) (by omega)
      rcases Nat.mod_two_eq_zero_or_one n with hpar | hpar
      · simp [h0, hpar, hrec]
      · cases hb : bitToLabel values (2 ^ k) with
        | none => simp [h0, hpar, hb]
        | some l => simp [h0, hpar, hb, hrec]

/-! ### The string codec -/

/-- Splitting on commas undoes the comma-join for member lists whose
members are nonempty and comma-free. -/
theorem splitComma_joinComma (S : List String)
    (hS : ∀ v ∈ S, v ≠ "" ∧ ',' ∉ v.data) :
    splitComma (joinComma S) = S := by
  rcases S with _ | ⟨w, T⟩
  · rfl
  · show (((List.intercalate [','] ((w :: T).map String.data)).splitOn ',').map
        (fun l => (⟨l⟩ : String))).filter (fun t => t ≠ "") = w :: T
    rw [List.splitOn_intercalate ((w :: T).map String.data) ','
      (by
        intro l hl
        obtain ⟨v, hv, rfl⟩ := List.mem_map.mp hl
        exact (hS v hv).2)
      (by simp)]
    rw [List.map_map]
    rw [show ((w :: T).map ((fun l => (⟨l⟩ : String)) ∘ String.data)) = w :: T from
      List.map_id (w :: T)]
    exact List.filter_eq_self.mpr fun a ha => by simpa using (hS a ha).1

/-- C2: in string mode (`retrieve_as_bitwise=False`), over a vocabulary
whose labels are nonempty and comma-free, decoding the encoding of a
LabelSet drawn from the vocabulary yields that LabelSet as a set. -/
theorem string_mode_round_trip (values S : List String) (t : SET)
    (hcfg : SET.init values false = some t)
    (hvoc : ∀ v ∈ values, v ≠ "" ∧ ',' ∉ v.data)
    (hS : ∀ v ∈ S, v ∈ values) :
    ∃ s, t.bind_process_string (BindValue.labels S) = BindResult.str s ∧
      (t.result_process_string (ResultValue.str s)).1 = some S.toFinset := by
  refine ⟨joinComma S, rfl, ?_⟩
  simp only [SET.result_process_string]
  rw [splitComma_joinComma S (fun v hv => hvoc v (hS v hv))]

/-- Witness for C2: vocabulary `("foo","bar","baz")`, LabelSet
`{"bar","baz"}`. -/
theorem string_mode_round_trip_witness :
    (SET.init ["foo", "bar", "baz"] false
        = some (SET.mk ["foo", "bar", "baz"] false 3)
      ∧ (∀ v ∈ (["foo", "bar", "baz"] : List String), v ≠ "" ∧ ',' ∉ v.data)
      ∧ (∀ v ∈ (["bar", "baz"] : List String),
          v ∈ (["foo", "bar", "baz"] : List String))) ∧
    (∃ s, (SET.mk ["foo", "bar", "baz"] false 3).bind_process_string
          (BindValue.labels ["bar", "baz"]) = BindResult.str s ∧
        ((SET.mk ["foo", "bar", "baz"] false 3).result_process_string
          (ResultValue.str s)).1 = some (["bar", "baz"] : List String).toFinset) :=
  ⟨⟨by decide, by decide, by decide⟩,
   string_mode_round_trip ["foo", "bar", "baz"] ["bar", "baz"]
     (SET.mk ["foo", "bar", "baz"] false 3) (by decide) (by decide) (by decide)⟩

/-- C7: string-mode decode of the raw string `""` yields the empty set, and
in general every decoded set from a raw string contains only nonempty
fragments. -/
theorem string_decode_discards_empty_fragments (t : SET) :
    (t.result_process_string (ResultValue.str "")).1 = some (∅ : Finset String) ∧
    ∀ (s : String) (T : Finset String),
      (t.result_process_string (ResultValue.str s)).1 = some T → "" ∉ T := by
  constructor
  · rfl
  · intro s T hT
    simp only [SET.result_process_string, Option.some.injEq] at hT
    subst hT
    simp only [List.mem_toFinset, splitComma, List.mem_filter]
    rintro ⟨-, hne⟩
    simp at hne

/-- Witness for C7: decoding `",a,"` yields `{"a"}`, which does not contain
the empty string. -/
theorem string_decode_discards_empty_fragments_witness :
    ((SET.mk ["a"] false 1).result_process_string
        (ResultValue.str "")).1 = some (∅ : Finset String) ∧
    "" ∉ ({"a"} : Finset String) :=
  ⟨(string_decode_discards_empty_fragments (SET.mk ["a"] false 1)).1,
   (string_decode_discards_empty_fragments (SET.mk ["a"] false 1)).2 ",a," {"a"}
     (by decide)⟩

/-! ### Bitmask-mode claims -/

/-- C1: in bitmask mode, decoding the encoding of any LabelSet drawn from
the vocabulary yields that LabelSet; the empty set encodes to the integer 0
and the integer 0 decodes to the empty set. -/
theorem bitmask_round_trip (values S : List String) (t : SET)
    (hcfg : SET.init values true = some t) (hnd : values.Nodup)
    (hS : ∀ v ∈ S, v ∈ values) :
    (∃ m, t.bind_process_bitwise (BindValue.labels S) = some (BindResult.int m) ∧
        t.result_process_bitwise (some m) = some (some S.toFinset)) ∧
    t.bind_process_bitwise (BindValue.labels []) = some (BindResult.int 0) ∧
    t.result_process_bitwise (some 0) = some (some (∅ : Finset String)) := by
  obtain rfl := Option.some.inj (show
    some (SET.mk values true ((values.map String.length).foldr max 0)) = some t
    from hcfg)
  refine ⟨?_, rfl, ?_⟩
  · obtain ⟨m, hm, hbits⟩ := orLoop_testBit values hnd S 0 hS
    have hbits2 : ∀ k, m.testBit k = true ↔ ∃ v ∈ S, values.indexOf v = k := by
      intro k
      rw [hbits k]
      simp
    have hrange : ∀ j, m.testBit j = true → 0 + j < values.length := by
      intro j hj
      obtain ⟨v, hv, rfl⟩ := (hbits2 j).mp hj
      have := List.indexOf_lt_length.mpr (hS v hv)
      omega
    obtain ⟨ls, hls, hmem⟩ := mapBitsAux_testBit values m 0 hrange
    refine ⟨m, ?_, ?_⟩
    · simp only [SET.bind_process_bitwise, hm, Option.map_some']
    · simp only [SET.result_process_bitwise, mapBits, hls, Option.map_some',
        Option.some.injEq]
      have hext : ls.toFinset = S.toFinset := by
        apply Finset.ext
        intro l
        simp only [List.mem_toFinset]
        rw [hmem l]
        constructor
        · rintro ⟨j, hj1, hj2⟩
          obtain ⟨v, hv, hvk⟩ := (hbits2 j).mp hj1
          have hvlt : values.indexOf v < values.length :=
            List.indexOf_lt_length.mpr (hS v hv)
          rw [← hvk, Nat.zero_add, List.getElem?_eq_getElem hvlt,
            List.getElem_indexOf hvlt] at hj2
          cases Option.some.inj hj2
          exact hv
        · intro hl
          have hlt : values.indexOf l < values.length :=
            List.indexOf_lt_length.mpr (hS l hl)
          refine ⟨values.indexOf l, (hbits2 _).mpr ⟨l, hl, rfl⟩, ?_⟩
          rw [Nat.zero_add, List.getElem?_eq_getElem hlt,
            List.getElem_indexOf hlt]
      rw [hext]
  · simp only [SET.result_process_bitwise, mapBits]
    rw [mapBitsAux]
    simp

/-- Witness for C1: vocabulary `("a","b","c")`, LabelSet `{"a","c"}`. -/
theorem bitmask_round_trip_witness :
    (SET.init ["a", "b", "c"] true = some (SET.mk ["a", "b", "c"] true 1)
      ∧ (["a", "b", "c"] : List String).Nodup
      ∧ (∀ v ∈ (["a", "c"] : List String),
          v ∈ (["a", "b", "c"] : List String))) ∧
    ((∃ m, (SET.mk ["a", "b", "c"] true 1).bind_process_bitwise
          (BindValue.labels ["a", "c"]) = some (BindResult.int m) ∧
        (SET.mk ["a", "b", "c"] true 1).result_process_bitwise (some m)
          = some (some (["a", "c"] : List String).toFinset)) ∧
      (SET.mk ["a", "b", "c"] true 1).bind_process_bitwise
        (BindValue.labels []) = some (BindResult.int 0) ∧
      (SET.mk ["a", "b", "c"] true 1).result_process_bitwise (some 0)
        = some (some (∅ : Finset String))) :=
  ⟨⟨by decide, by decide, by decide⟩,
   bitmask_round_trip ["a", "b", "c"] ["a", "c"] (SET.mk ["a", "b", "c"] true 1)
     (by decide) (by decide) (by decide)⟩

/-- C3: construction with `retrieve_as_bitwise=True` over a duplicate-free
vocabulary assigns the label at position `i` the bit value `2^i`, records
the inverse mapping, and the assigned bit values are exactly the pairwise
distinct powers `2^0 .. 2^(n-1)`. -/
theorem bit_assignment (values : List String) (hnd : values.Nodup) :
    (∀ (i : Nat) (h : i < values.length),
        labelToBit values values[i] = some (2 ^ i) ∧
        bitToLabel values (2 ^ i) = some values[i]) ∧
    values.map (labelToBit values)
      = (List.range values.length).map (fun i => some (2 ^ i)) ∧
    ((List.range values.length).map (fun i => (2 : Nat) ^ i)).Nodup := by
  refine ⟨fun i h => ⟨labelToBit_getElem values hnd i h, ?_⟩, ?_, ?_⟩
  · rw [bitToLabel_pow]
    exact List.getElem?_eq_getElem h
  · apply List.ext_getElem
    · simp
    · intro i h1 h2
      simp only [List.getElem_map, List.getElem_range]
      exact labelToBit_getElem values hnd i (by simpa using h1)
  · exact (List.nodup_range _).map (Nat.pow_right_injective (le_refl 2))

/-- Witness for C3: vocabulary `("a","b","c")`, position 1. -/
theorem bit_assignment_witness :
    (["a", "b", "c"] : List String).Nodup ∧
    (labelToBit ["a", "b", "c"] "b" = some 2
      ∧ bitToLabel ["a", "b", "c"] 2 = some "b") :=
  ⟨by decide, (bit_assignment ["a", "b", "c"] (by decide)).1 1 (by decide)⟩

/-- C8: in bitmask mode, decoding an integer that has a set bit with no
corresponding vocabulary label fails, propagating the error to the caller
instead of producing a set. -/
theorem bitmask_decode_invalid_bit (values : List String) (t : SET) (n j : Nat)
    (hcfg : SET.init values true = some t)
    (hbit : n.testBit j = true) (hj : values.length ≤ j) :
    t.result_process_bitwise (some n) = none := by
  obtain rfl := Option.some.inj (show
    some (SET.mk values true ((values.map String.length).foldr max 0)) = some t
    from hcfg)
  simp only [SET.result_process_bitwise, mapBits]
  rw [mapBitsAux_none values n 0 j hbit (by omega)]
  rfl

/-- Witness for C8: decoding 8 against the 3-label vocabulary
`("a","b","c")` fails (bit 3 owns no label). -/
theorem bitmask_decode_invalid_bit_witness :
    (SET.init ["a", "b", "c"] true = some (SET.mk ["a", "b", "c"] true 1)
      ∧ (8 : Nat).testBit 3 = true
      ∧ (["a", "b", "c"] : List String).length ≤ 3) ∧
    (SET.mk ["a", "b", "c"] true 1).result_process_bitwise (some 8) = none :=
  ⟨⟨by decide, by decide, by decide⟩,
   bitmask_decode_invalid_bit ["a", "b", "c"] (SET.mk ["a", "b", "c"] true 1) 8 3
     (by decide) (by decide) (by decide)⟩

/-! ### Construction-time validation claims -/

/-- C4: a vocabulary containing the blank label `""` is rejected
(`ArgumentError`) without bitmask mode and accepted with it. -/
theorem blank_label_rule (values : List String) (hmem : "" ∈ values) :
    SET.init values false = none ∧ (SET.init values true).isSome = true := by
  constructor
  · have hcont : values.contains "" = true := by simpa using hmem
    simp only [SET.init, Bool.not_false, Bool.true_and, hcont, if_true]
  · rfl

/-- Witness for C4: the one-label vocabulary `("",)`. -/
theorem blank_label_rule_witness :
    ("" ∈ ([""] : List String)) ∧
    (SET.init [""] false = none ∧ (SET.init [""] true).isSome = true) :=
  ⟨by decide, blank_label_rule [""] (by decide)⟩

/-- Counterexample for C6: a 65-label vocabulary — longer than the 64-bit
width of a MySQL SET column, the natural documented width — still
constructs successfully in bitmask mode; `SET.__init__` performs no length
check at all (the bitmask integer is arbitrary-precision). -/
theorem no_width_limit_counterexample :
    (SET.init ((List.range 65).map (fun i => "L" ++ toString i)) true).isSome
      = true := by decide

/-- C6 as amended: construction never fails because of the vocabulary
length; whenever the blank-label rule is satisfied (a blank label only
with bitmask mode), `SET.__init__` succeeds, for vocabularies of every
length. -/
theorem no_width_limit (values : List String) (b : Bool)
    (hblank : "" ∈ values → b = true) :
    (SET.init values b).isSome = true := by
  cases b
  · have hnb : "" ∉ values := fun h => absurd (hblank h) (by decide)
    have hcont : values.contains "" = false := by simpa using hnb
    simp only [SET.init, Bool.not_false, Bool.true_and, hcont]
    rfl
  · rfl

/-- Witness for C6 (amended): the 65-label vocabulary constructs. -/
theorem no_width_limit_witness :
    ("" ∈ ((List.range 65).map (fun i => "L" ++ toString i)) → true = true) ∧
    (SET.init ((List.range 65).map (fun i => "L" ++ toString i)) true).isSome
      = true :=
  ⟨fun _ => rfl,
   no_width_limit ((List.range 65).map (fun i => "L" ++ toString i)) true
     (fun _ => rfl)⟩

/-! ### Invalid-member claims -/

/-- Counterexample for C5: in string mode, encoding the LabelSet
`{"unknown"}` against the vocabulary `("foo","bar")` does not fail — the
string-mode `bind_processor` performs no vocabulary lookup and happily
produces the storage string `"unknown"`. -/
theorem invalid_label_counterexample :
    SET.init ["foo", "bar"] false = some (SET.mk ["foo", "bar"] false 3)
      ∧ (SET.mk ["foo", "bar"] false 3).bind_process_string
          (BindValue.labels ["unknown"]) = BindResult.str "unknown" :=
  ⟨by decide, by decide⟩

/-- C5 as amended: in bitmask mode, encoding a LabelSet containing a member
absent from the configured vocabulary fails (`KeyError` from
`self._bitmap[v]`) rather than producing a storage value; string mode
performs no such validation. -/
theorem invalid_label_rejected_bitwise (t : SET) (S : List String) (v : String)
    (hv : v ∈ S) (habs : v ∉ t.values) :
    t.bind_process_bitwise (BindValue.labels S) = none := by
  simp only [SET.bind_process_bitwise]
  rw [orLoop_none t.values v habs S 0 hv]
  rfl

/-- Witness for C5 (amended): encoding `{"unknown"}` against
`("foo","bar")` in bitmask mode fails. -/
theorem invalid_label_rejected_bitwise_witness :
    ("unknown" ∈ (["unknown"] : List String)
      ∧ "unknown" ∉ (SET.mk ["foo", "bar"] true 3).values) ∧
    (SET.mk ["foo", "bar"] true 3).bind_process_bitwise
      (BindValue.labels ["unknown"]) = none :=
  ⟨⟨by decide, by decide⟩,
   invalid_label_rejected_bitwise (SET.mk ["foo", "bar"] true 3) ["unknown"]
     "unknown" (by decide) (by decide)⟩

/-! ### Purity claims -/

/-- Counterexample for C9: string-mode result processing of a pre-split set
containing the blank string mutates its input in place —
`value.discard("")` (source line 198) removes `""` from the caller's set,
so the argument after the call differs from the argument before it. -/
theorem decode_mutates_input_counterexample :
    ((SET.mk ["a"] false 1).result_process_string
        (ResultValue.set {""})).2 ≠ ResultValue.set {""} := by decide

/-- C9 as amended: encode and decode never mutate the configuration (in
this embedding every processor is a pure function of the configuration,
which is read-only), and no processor mutates its input — except the
string-mode result processor applied to a pre-split set containing `""`,
which removes `""` from the caller's set in place.  For every input that
is not a set containing `""`, the argument is returned unchanged. -/
theorem processors_leave_input_unchanged (t : SET) (v : ResultValue)
    (hv : ∀ S, v = ResultValue.set S → "" ∉ S) :
    (t.result_process_string v).2 = v := by
  cases v with
  | null => rfl
  | str s => rfl
  | set S =>
    have h := hv S rfl
    simp only [SET.result_process_string]
    rw [Finset.erase_eq_of_not_mem h]

/-- Witness for C9 (amended): the pre-split set `{"a"}` (no blank member)
is returned unchanged. -/
theorem processors_leave_input_unchanged_witness :
    (∀ S, ResultValue.set {"a"} = ResultValue.set S → "" ∉ S) ∧
    ((SET.mk ["a"] false 1).result_process_string
        (ResultValue.set {"a"})).2 = ResultValue.set {"a"} :=
  ⟨fun S h => by cases h; decide,
   processors_leave_input_unchanged (SET.mk ["a"] false 1)
     (ResultValue.set {"a"}) (fun S h => by cases h; decide)⟩

/-- C10: in bitmask mode, encoding the absent value `None` returns `None`
unchanged — it is neither rejected nor encoded as the integer 0. -/
theorem bitwise_encode_null_passthrough (t : SET) :
    t.bind_process_bitwise BindValue.null = some BindResult.null := rfl

end MySQLSet
